import Mathlib

/-!
Verification of the agentmemory tiered-memory library.

This file gives a shallow embedding, in Lean, of the core data model and
operations of the library (working / episodic / semantic memory tiers and the
MemoryStore orchestrator), translated from the Python sources:

  - agentmemory/tiers/working.py   (Message, WorkingMemory)
  - agentmemory/tiers/episodic.py  (EpisodicMemory, SQLite-backed)
  - agentmemory/tiers/semantic.py  (SemanticMemory, vector-DB backed)
  - agentmemory/dedup.py           (MemoryDeduplicator)
  - agentmemory/compression.py     (ContextCompressor)
  - agentmemory/store.py           (MemoryStore)

Opaque external capabilities (the embedding model, the vector search backend,
the LLM generation call, the wall clock) are passed in as explicit inputs.
Machine-level effects (SQLite, files) are modelled by explicit state passing.
Theorems about the specification's claims follow the definitions.
-/

namespace AgentMemory

/-! ## Working memory tier (agentmemory/tiers/working.py) -/

/-- Embeds the `Message` dataclass of tiers/working.py: role, content and a
token estimate (an integer, at least 1 once constructed via `mkMessage`). -/
structure Message where
  role : String
  content : String
  token_estimate : Nat
deriving DecidableEq, Repr

/-- Embeds `Message.__init__` plus `Message.__post_init__`: the dataclass
default for `token_estimate` is 0, and `__post_init__` replaces a zero
estimate by `max(1, len(content) // 4)` (Python `//` is floor division,
which on natural numbers is Lean's `/`). -/
def mkMessage (role content : String) (tokenEstimate : Nat) : Message :=
  { role := role
    content := content
    token_estimate :=
      if tokenEstimate = 0 then max 1 (content.length / 4) else tokenEstimate }

/-- Embeds the `WorkingMemory` object state of tiers/working.py:
`max_tokens`, `compression_threshold` (a Python float, modelled as a
rational), the message list and the injected context string. -/
structure WorkingMemory where
  max_tokens : Nat
  compression_threshold : ℚ
  messages : List Message
  injected_context : String
deriving DecidableEq, Repr

/-- Embeds the `token_count` property: the sum of the constituent message
token estimates. -/
def tokenCount (w : WorkingMemory) : Nat :=
  (w.messages.map Message.token_estimate).sum

/-- Embeds the `needs_compression` property:
`token_count >= int(max_tokens * compression_threshold)`.  Python `int()`
truncation of the nonnegative product is modelled by the rational floor. -/
def needsCompression (w : WorkingMemory) : Bool :=
  decide ((⌊(w.max_tokens : ℚ) * w.compression_threshold⌋ : ℤ) ≤ (tokenCount w : ℤ))

/-- Embeds `WorkingMemory.add_message`: appends a fresh `Message` built with
the dataclass default token estimate 0 (hence recomputed by post-init). -/
def wmAddMessage (w : WorkingMemory) (role content : String) : WorkingMemory :=
  { w with messages := w.messages ++ [mkMessage role content 0] }

/-- Embeds the list comprehension `[m for m in self._messages if m.role != "system"]`
used by both `pop_oldest_messages` and `get_messages_for_compression`. -/
def nonSystemMessages (w : WorkingMemory) : List Message :=
  w.messages.filter (fun m => m.role != "system")

/-- Embeds `WorkingMemory.get_messages_for_compression`:
`non_system[:max(1, len(non_system) // 2)]`, without mutating the window. -/
def getMessagesForCompression (w : WorkingMemory) : List Message :=
  let ns := nonSystemMessages w
  ns.take (max 1 (ns.length / 2))

/-- Embeds the identity-based removal of `WorkingMemory.pop_oldest_messages`:
the first `n` non-system occurrences are removed (Python removes by object
identity `id(m)`, which on a list of distinct objects is exactly
occurrence-based removal); system messages and newer messages stay.  Returns
(evicted, remaining). -/
def popOldestAux : Nat → List Message → List Message × List Message
  | _, [] => ([], [])
  | n, m :: rest =>
    if m.role = "system" then
      let p := popOldestAux n rest
      (p.1, m :: p.2)
    else if n = 0 then
      ([], m :: rest)
    else
      let p := popOldestAux (n - 1) rest
      (m :: p.1, p.2)

/-- Embeds `WorkingMemory.pop_oldest_messages` as a state transformer. -/
def popOldestMessages (w : WorkingMemory) (n : Nat) : List Message × WorkingMemory :=
  let p := popOldestAux n w.messages
  (p.1, { w with messages := p.2 })

/-- Embeds `WorkingMemory.clear`: drops all messages and the injected
context, keeping the configuration fields. -/
def wmClear (w : WorkingMemory) : WorkingMemory :=
  { w with messages := [], injected_context := "" }

/-! ## Episodic memory tier (agentmemory/tiers/episodic.py)

The SQLite `memories` table is modelled as a list of rows in insertion
order.  `id INTEGER PRIMARY KEY AUTOINCREMENT` is the `rid` field, handed
out by a counter that is never reused; `created_at` is the wall-clock value
`time.time()`, which is an explicit input of `epStore`.  The state is the
per-namespace (`agent_id`) slice of the table: every query in the source
filters on `agent_id = ?`, so one `EpisodicState` is one namespace. -/

/-- Embeds one row of the `memories` table (the namespace column is implicit
in the state). -/
structure EpisodicRecord where
  rid : Nat
  content : String
  metadata : List (String × String)
  created_at : Int
  importance : Int
deriving DecidableEq, Repr

/-- Embeds the per-namespace table state: rows in insertion order plus the
AUTOINCREMENT counter. -/
structure EpisodicState where
  next_id : Nat
  records : List EpisodicRecord
deriving DecidableEq, Repr

/-- Embeds a freshly created (or just cleared) namespace: SQLite reports no
rows for an agent that has never stored. -/
def epEmpty : EpisodicState := ⟨0, []⟩

/-- Embeds the eviction ordering `ORDER BY importance ASC, created_at ASC`
of `EpisodicMemory.store`.  The SQL query does not order ties on
(importance, created_at); the model breaks such ties by `rid` (insertion
order) to obtain a total order.  All theorems that depend on the eviction
order carry a distinct-timestamp hypothesis under which this tie-break is
never exercised, so nothing is proved from the model's choice. -/
def evictLE (r s : EpisodicRecord) : Prop :=
  r.importance < s.importance ∨
    (r.importance = s.importance ∧
      (r.created_at < s.created_at ∨
        (r.created_at = s.created_at ∧ r.rid ≤ s.rid)))

instance : DecidableRel evictLE := fun r s => by
  unfold evictLE; infer_instance

instance : IsTotal EpisodicRecord evictLE := by
  constructor; intro a b; unfold evictLE; omega

instance : IsTrans EpisodicRecord evictLE := by
  constructor; intro a b c hab hbc; unfold evictLE at hab hbc ⊢; omega

/-- Embeds `EpisodicMemory.store`: insert the new row with the given
timestamp, then, if the namespace count exceeds `max_entries`, delete the
`count - max_entries` rows selected by
`ORDER BY importance ASC, created_at ASC LIMIT ?` (the `DELETE ... WHERE id IN
(SELECT id ...)` of the source, realised by sorting, taking, and filtering
out the selected ids). -/
def epStore (maxEntries : Nat) (s : EpisodicState) (content : String)
    (metadata : List (String × String)) (importance : Int) (now : Int) :
    EpisodicState :=
  let r : EpisodicRecord :=
    { rid := s.next_id, content := content, metadata := metadata
      created_at := now, importance := importance }
  let recs := s.records ++ [r]
  if maxEntries < recs.length then
    let doomed :=
      ((List.insertionSort evictLE recs).take (recs.length - maxEntries)).map
        EpisodicRecord.rid
    ⟨s.next_id + 1, recs.filter (fun x => decide (x.rid ∉ doomed))⟩
  else
    ⟨s.next_id + 1, recs⟩

/-- Embeds `EpisodicMemory.clear`: `DELETE FROM memories WHERE agent_id = ?`.
The AUTOINCREMENT counter is not reset by a SQL DELETE. -/
def epClear (s : EpisodicState) : EpisodicState := ⟨s.next_id, []⟩

/-- Embeds `EpisodicMemory.count`: `SELECT COUNT(*) ... WHERE agent_id = ?`. -/
def epCount (s : EpisodicState) : Nat := s.records.length

/-- Embeds the ordering `ORDER BY created_at DESC` of
`EpisodicMemory.recall_recent`: a later row sorts no later than an earlier
one exactly when its `created_at` is no smaller. -/
def createdDescOrder (a b : EpisodicRecord) : Prop := b.created_at ≤ a.created_at

/-- Embeds `EpisodicMemory.recall_recent` relationally.  The SQL
`SELECT ... ORDER BY created_at DESC LIMIT n` returns the first `n` rows of
some reordering of the namespace rows that is non-increasing in
`created_at`; SQL does not specify the relative order of rows with equal
`created_at`, so any such reordering is an admissible output. -/
def recallRecentRel (s : EpisodicState) (n : Nat) (out : List EpisodicRecord) : Prop :=
  ∃ ord : List EpisodicRecord,
    ord.Perm s.records ∧ ord.Pairwise createdDescOrder ∧ out = ord.take n

/-! ## Semantic memory tier (agentmemory/tiers/semantic.py)

The vector index, the embedding function and nearest-neighbor search are
opaque external collaborators (spec sections 1 and 4.5); only the store /
clear / count bookkeeping visible to the orchestrator is embedded.
`SemanticMemory.store` derives the document id as
`hashlib.sha256(content.encode()).hexdigest()[:16]` and upserts, so storing
the same content twice overwrites one entry; the deterministic content hash
is modelled as the content itself (hash collisions are out of scope). -/

/-- Embeds the set of stored semantic entries, keyed by their
content-derived id. -/
structure SemanticState where
  entries : List String
deriving DecidableEq, Repr

/-- Embeds an uninitialised semantic collection (count 0). -/
def semEmpty : SemanticState := ⟨[]⟩

/-- Embeds `SemanticMemory.store`: upsert by the content-derived id — the
same content maps to the same id, overwriting rather than duplicating. -/
def semStore (s : SemanticState) (content : String) : SemanticState :=
  if content ∈ s.entries then s else ⟨s.entries ++ [content]⟩

/-- Embeds `SemanticMemory.clear`: drops the namespace collection. -/
def semClear (_ : SemanticState) : SemanticState := ⟨[]⟩

/-- Embeds `SemanticMemory.count`. -/
def semCount (s : SemanticState) : Nat := s.entries.length

/-! ## Deduplicator (agentmemory/dedup.py) -/

/-- Embeds `MemoryDeduplicator.is_duplicate`: an empty pool is never a
duplicate; an exact string match short-circuits true; otherwise the
embedding-based test runs.  Computing embeddings and their cosine
similarity is an opaque external capability, so the judgement
"cosine_similarity(embed candidate, embed m) >= threshold" is an input
oracle; `simOracle = none` models the `except Exception` branch of the
source (embedding failure), which falls back to the exact-match result
only. -/
def isDuplicate (simOracle : Option (String → String → Bool))
    (candidate : String) (existing : List String) : Bool :=
  if existing.isEmpty then false
  else if existing.contains candidate then true
  else
    match simOracle with
    | none => false
    | some f => existing.any (fun m => f candidate m)

/-! ## MemoryStore orchestrator (agentmemory/store.py) -/

/-- Embeds the error raised by the opaque LLM generation call used by
`ContextCompressor.summarize` / `extract_facts` (backend unreachable,
auth, rate limit). -/
inductive GenErr where
  | generationUnavailable
deriving DecidableEq, Repr

/-- Embeds the `MemoryStore` configuration flags consumed by the
orchestrator's control flow. -/
structure MemoryConfig where
  max_entries : Nat
  enable_dedup : Bool
  auto_compress : Bool
  auto_extract_facts : Bool
deriving DecidableEq, Repr

/-- Embeds, for one orchestrator call, the outcomes of the opaque external
collaborators:

* `search c` — the contents returned by `SemanticMemory.search(c, n=5,
  min_similarity=0.5)` in `remember`'s dedup check; `none` models the
  `except` branch (backend raised, dedup check skipped);
* `simOracle` — the deduplicator's embedding-similarity judgement (see
  `isDuplicate`);
* `semOk` — whether `SemanticMemory.store` succeeds (`false` models the
  swallowed backend-unavailable exception);
* `summarizeRes` / `extractRes` — the outcomes of the two generation calls
  of a compression pass;
* `now` — the wall clock `time.time()` read by episodic stores issued
  during the call. -/
structure Env where
  search : String → Option (List String)
  simOracle : Option (String → String → Bool)
  semOk : Bool
  summarizeRes : Except GenErr String
  extractRes : Except GenErr (List String)
  now : Int

/-- Embeds the three-tier state owned by one `MemoryStore`. -/
structure StoreState where
  working : WorkingMemory
  episodic : EpisodicState
  semantic : SemanticState
deriving DecidableEq, Repr

/-- Embeds `MemoryStore.remember`: if dedup is enabled and `store_semantic`
is set, fetch the comparison pool from semantic search (exceptions skip the
check) and return immediately when the candidate is judged a duplicate;
otherwise store to episodic unconditionally and attempt the semantic store,
swallowing backend errors. -/
def remember (cfg : MemoryConfig) (env : Env) (s : StoreState)
    (content : String) (importance : Int) (storeSemantic : Bool) : StoreState :=
  let dup : Bool :=
    if cfg.enable_dedup && storeSemantic then
      match env.search content with
      | some pool => isDuplicate env.simOracle content pool
      | none => false
    else false
  if dup then s
  else
    let s1 : StoreState :=
      { s with episodic := epStore cfg.max_entries s.episodic content [] importance env.now }
    if storeSemantic && env.semOk then
      { s1 with semantic := semStore s1.semantic content }
    else s1

/-- Embeds `MemoryStore._compress_working_memory` with Python exception
semantics made explicit: mutations performed before an uncaught raise
persist, and the raise is reported in the second component.  The source has
no handler around the generation calls, so a generation failure escapes.
On success the exact compressed messages are evicted. -/
def compressWorkingMemory (cfg : MemoryConfig) (env : Env) (s : StoreState) :
    StoreState × Except GenErr Unit :=
  let mtc := getMessagesForCompression s.working
  if mtc.isEmpty then (s, Except.ok ())
  else
    match env.summarizeRes with
    | Except.error e => (s, Except.error e)
    | Except.ok summary =>
      let s1 :=
        if summary = "" then s
        else
          { s with episodic :=
              (epStore cfg.max_entries s.episodic summary
                [("type", "compression_summary")] 7 env.now) }
      if cfg.auto_extract_facts then
        match env.extractRes with
        | Except.error e => (s1, Except.error e)
        | Except.ok facts =>
          let s2 := facts.foldl (fun st fact => remember cfg env st fact 8 true) s1
          ({ s2 with working := (popOldestMessages s2.working mtc.length).2 },
            Except.ok ())
      else
        ({ s1 with working := (popOldestMessages s1.working mtc.length).2 },
          Except.ok ())

/-- Embeds `MemoryStore.add_message`: append to the working window, then, if
`auto_compress` is on and the window signals compression, run the
compression pass.  An exception escaping the pass escapes `add_message`
(same explicit-exception convention as `compressWorkingMemory`). -/
def addMessage (cfg : MemoryConfig) (env : Env) (s : StoreState)
    (role content : String) : StoreState × Except GenErr Unit :=
  let s1 : StoreState := { s with working := wmAddMessage s.working role content }
  if cfg.auto_compress && needsCompression s1.working then
    compressWorkingMemory cfg env s1
  else
    (s1, Except.ok ())

/-- Embeds `MemoryStore.clear(tiers)` for an explicitly supplied tier list:
each of the three known tier names is cleared exactly when it occurs in the
list; other strings in the list match none of the three membership tests. -/
def clearTiers (s : StoreState) (tiers : List String) : StoreState :=
  let s1 := if "working" ∈ tiers then { s with working := wmClear s.working } else s
  let s2 := if "episodic" ∈ tiers then { s1 with episodic := epClear s1.episodic } else s1
  if "semantic" ∈ tiers then { s2 with semantic := semClear s2.semantic } else s2

/-! ## recall and get_context (agentmemory/store.py) -/

/-- Embeds one element of the list returned by `MemoryStore.recall`:
content, source tag and ranking score (a Python float, modelled as a
rational). -/
structure RecallItem where
  content : String
  source : String
  score : ℚ
deriving DecidableEq, Repr

/-- Embeds the descending comparison used by
`sorted(results, key=lambda x: x["score"], reverse=True)`. -/
def scoreGE (a b : RecallItem) : Prop := b.score ≤ a.score

instance : DecidableRel scoreGE := fun a b =>
  inferInstanceAs (Decidable (b.score ≤ a.score))

instance : IsTotal RecallItem scoreGE :=
  ⟨fun a b => le_total b.score a.score⟩

instance : IsTrans RecallItem scoreGE :=
  ⟨fun _ _ _ h1 h2 => le_trans h2 h1⟩

/-- Embeds the `seen` / `unique` loop of `MemoryStore.recall`: keep the
first occurrence of each content, in order. -/
def dedupByContent (seen : List String) : List RecallItem → List RecallItem
  | [] => []
  | r :: rest =>
    if r.content ∈ seen then dedupByContent seen rest
    else r :: dedupByContent (r.content :: seen) rest

/-- Embeds the deterministic part of `MemoryStore.recall`, given the outputs
of the two retrieval calls: semantic results (content, similarity) are
scored by similarity, episodic records (content, importance) by
importance / 10; the merged list is stably sorted by score descending
(Python's `sorted` is stable, as is `List.insertionSort`), deduplicated by
content keeping first occurrences, and truncated to `n`. -/
def recallPure (semanticResults : List (String × ℚ))
    (recent : List (String × Int)) (n : Nat) : List RecallItem :=
  (dedupByContent []
    (List.insertionSort scoreGE
      (semanticResults.map (fun p => RecallItem.mk p.1 "semantic" p.2) ++
        recent.map (fun p => RecallItem.mk p.1 "episodic" ((p.2 : ℚ) / 10))))).take n

/-- Embeds `MemoryStore.recall(query, n, include_episodic=True)` end to end:
the semantic search output for the query is an opaque input
(`semanticResults`; an exception is the empty list), the episodic half is
`recall_recent(min(n, 10))` (relational, see `recallRecentRel`), and the
merge is `recallPure`. -/
def recallRel (semanticResults : List (String × ℚ)) (s : EpisodicState)
    (n : Nat) (out : List RecallItem) : Prop :=
  ∃ recent : List EpisodicRecord,
    recallRecentRel s (min n 10) recent ∧
      out = recallPure semanticResults
        (recent.map (fun r => (r.content, r.importance))) n

/-- Embeds the bullet-selection loop of `MemoryStore.get_context`: for each
memory in order, form the line `"- " + content`, estimate
`len(line) // 4` tokens, stop at the first line that would drive the
remaining budget negative, otherwise keep it and charge the budget. -/
def ctxTake (budget : Int) : List String → List String
  | [] => []
  | mem :: rest =>
    if budget - ((("- " ++ mem).length : Int) / 4) < 0 then []
    else ("- " ++ mem) :: ctxTake (budget - ((("- " ++ mem).length : Int) / 4)) rest

/-- Embeds `"\n".join(lines)` for the header-initialised line list of
`MemoryStore.get_context`. -/
def joinContextLines (ls : List String) : String :=
  ls.foldl (fun acc l => acc ++ "\n" ++ l) "[Memory Context]"

/-- Embeds the formatting part of `MemoryStore.get_context`: the retrieved
memory contents (from `recall` when a query is given, else from
`recall_recent`; neither reads `max_tokens`) are the fixed input
`memories`; the result is empty when no memory or no bullet was included
(`len(lines) == 1`), else the header plus the included bullets joined by
newlines. -/
def getContext (memories : List String) (max_tokens : Int) : String :=
  if memories.isEmpty then ""
  else if (ctxTake max_tokens memories).isEmpty then ""
  else joinContextLines (ctxTake max_tokens memories)

/-! ## Concrete states used to evaluate the claims -/

/-- Configuration with the library defaults: `max_entries = 1000`,
`enable_dedup`, `auto_compress`, `auto_extract_facts` all on. -/
def cfgDefault : MemoryConfig := ⟨1000, true, true, true⟩

/-- A fresh `MemoryStore` state with default working-memory configuration
(`max_working_tokens = 4096`, `compression_threshold = 0.8`). -/
def stEmpty : StoreState := ⟨⟨4096, (8 : ℚ) / 10, [], ""⟩, epEmpty, semEmpty⟩

/-- Environment for a first `remember("X")` against an empty semantic store:
the comparison-pool search returns no matches, embeddings unavailable
(exact-match dedup only), and the semantic store succeeds. -/
def envFirstCall : Env :=
  ⟨fun _ => some [], none, true, Except.ok "", Except.ok [], 10⟩

/-- Environment for the second `remember("X")`: the comparison-pool search
now returns the stored "X", so the exact-match rule fires. -/
def envSecondCall : Env :=
  ⟨fun _ => some ["X"], none, true, Except.ok "", Except.ok [], 11⟩

/-- The state after two successive `remember("X")` calls with dedup enabled
and `store_semantic=True`, the second judged a duplicate by exact match. -/
def c1State : StoreState :=
  remember cfgDefault envSecondCall
    (remember cfgDefault envFirstCall stEmpty "X" 5 true) "X" 5 true

/-- Environment whose generation backend fails: the summarize call of a
compression pass raises. -/
def envGenFail : Env :=
  ⟨fun _ => some [], none, true, Except.error GenErr.generationUnavailable,
    Except.ok [], 0⟩

/-- A tiny working window (`max_tokens = 1`, threshold 1) so that a single
message triggers compression. -/
def stTiny : StoreState := ⟨⟨1, 1, [], ""⟩, epEmpty, semEmpty⟩

/-- A working window holding three non-system messages. -/
def wmThree : WorkingMemory :=
  ⟨4096, (8 : ℚ) / 10,
    [mkMessage "user" "alpha" 0, mkMessage "assistant" "beta" 0,
      mkMessage "user" "gamma" 0], ""⟩

/-- An episodic namespace holding two records that share a `created_at`
timestamp (the wall clock is coarse; two quick stores can tie). -/
def epTied : EpisodicState :=
  ⟨2, [⟨0, "first", [], 5, 10⟩, ⟨1, "second", [], 5, 10⟩]⟩

/-! ## Orders used to state the ranking claims -/

/-- Formalizes the ordering asserted by claim C9: `created_at` descending
with records sharing a `created_at` ordered most-recently-inserted first
(larger `rid`, i.e. later insertion, first). -/
def mriOrder (a b : EpisodicRecord) : Prop :=
  b.created_at < a.created_at ∨ (b.created_at = a.created_at ∧ b.rid < a.rid)

instance : DecidableRel mriOrder := fun a b => by
  unfold mriOrder; infer_instance

instance : DecidableRel createdDescOrder := fun a b => by
  unfold createdDescOrder; infer_instance

/-- Formalizes "s is strictly ahead of r" in the ranking
(importance descending, then created_at descending) that claim C6 uses to
describe the surviving records. -/
def rankedAbove (r s : EpisodicRecord) : Prop :=
  r.importance < s.importance ∨
    (r.importance = s.importance ∧ r.created_at < s.created_at)

instance : DecidableRel rankedAbove := fun r s => by
  unfold rankedAbove; infer_instance

/-- Counts the stored records strictly ahead of `r`; `r` is in the top `m`
of `l` (by importance descending, then created_at descending) exactly when
`r ∈ l` and `countAbove r l < m`. -/
def countAbove (r : EpisodicRecord) (l : List EpisodicRecord) : Nat :=
  l.countP (fun x => decide (rankedAbove r x))

/-- One `RecentLog.store` call of a sequence: the content, the importance
argument and the `time.time()` value read during the call. -/
structure StoreCall where
  content : String
  importance : Int
  now : Int
deriving DecidableEq, Repr

/-- Runs a sequence of `EpisodicMemory.store` calls (metadata defaults to
`{}` in the source) left to right. -/
def runStores (maxEntries : Nat) (s : EpisodicState) : List StoreCall → EpisodicState
  | [] => s
  | c :: rest => runStores maxEntries (epStore maxEntries s c.content [] c.importance c.now) rest

/-- The rows a sequence of store calls creates, with their AUTOINCREMENT ids
starting at `startId` (independently of any later eviction). -/
def mkRecords (startId : Nat) : List StoreCall → List EpisodicRecord
  | [] => []
  | c :: rest =>
    (⟨startId, c.content, [], c.now, c.importance⟩ : EpisodicRecord) ::
      mkRecords (startId + 1) rest

/-- The specification's section-8 eviction scenario: importances 1, 9, 5
then one more 5, with strictly increasing timestamps. -/
def callsScenario : List StoreCall :=
  [⟨"a", 1, 10⟩, ⟨"b", 9, 11⟩, ⟨"c", 5, 12⟩, ⟨"d", 5, 13⟩]

/-- Invariant tying an episodic namespace state to the list `all` of rows
stored so far (in insertion order): the surviving rows come from `all`,
their number is `min |all| max_entries`, every survivor outranks every
evicted row, row ids are below the AUTOINCREMENT counter and identify rows
uniquely, timestamps are pairwise distinct, and both lists are
duplicate-free. -/
structure EvInv (m : Nat) (all : List EpisodicRecord) (s : EpisodicState) : Prop where
  sub : ∀ r ∈ s.records, r ∈ all
  len : s.records.length = min all.length m
  dom : ∀ r ∈ s.records, ∀ t ∈ all, t ∉ s.records → rankedAbove t r
  ridlt : ∀ r ∈ all, r.rid < s.next_id
  ridinj : ∀ r ∈ all, ∀ t ∈ all, r.rid = t.rid → r = t
  tsdist : ∀ r ∈ all, ∀ t ∈ all, r = t ∨ r.created_at ≠ t.created_at
  ndAll : all.Nodup
  ndRec : s.records.Nodup

/-! ## Helper lemmas (shared across claims) -/

/-- The duplicate branch of `remember`: when dedup is enabled, the search
succeeded, and the candidate is judged a duplicate of the pool, `remember`
returns before touching any tier. -/
theorem remember_dup_eq (cfg : MemoryConfig) (env : Env) (s : StoreState)
    (content : String) (importance : Int) (pool : List String)
    (hd : cfg.enable_dedup = true)
    (hs : env.search content = some pool)
    (hdup : isDuplicate env.simOracle content pool = true) :
    remember cfg env s content importance true = s := by
  unfold remember
  simp [hd, hs, hdup]

/-- When the namespace has room, `EpisodicMemory.store` is a plain append of
the new row (no eviction). -/
theorem epStore_no_evict (m : Nat) (s : EpisodicState) (content : String)
    (md : List (String × String)) (imp now : Int)
    (h : s.records.length < m) :
    epStore m s content md imp now =
      ⟨s.next_id + 1, s.records ++ [⟨s.next_id, content, md, now, imp⟩]⟩ := by
  unfold epStore
  have hc : ¬ m < s.records.length + 1 := by omega
  simp [hc]

/-- Token counts only grow when a message is appended. -/
theorem tokenCount_wmAddMessage (w : WorkingMemory) (role content : String) :
    tokenCount w ≤ tokenCount (wmAddMessage w role content) := by
  unfold tokenCount wmAddMessage
  simp

/-- `needs_compression` stays true across `add_message`: the threshold is
fixed and the token count only grows. -/
theorem needsCompression_wmAddMessage (w : WorkingMemory) (role content : String)
    (h : needsCompression w = true) :
    needsCompression (wmAddMessage w role content) = true := by
  unfold needsCompression at h ⊢
  rw [decide_eq_true_eq] at h ⊢
  have hle := tokenCount_wmAddMessage w role content
  have : (⌊(w.max_tokens : ℚ) * w.compression_threshold⌋ : ℤ) ≤ (tokenCount (wmAddMessage w role content) : ℤ) := by
    calc (⌊(w.max_tokens : ℚ) * w.compression_threshold⌋ : ℤ)
        ≤ (tokenCount w : ℤ) := h
      _ ≤ (tokenCount (wmAddMessage w role content) : ℤ) := by exact_mod_cast hle
  simpa [wmAddMessage] using this

/-- A window holding at least one non-system message always offers at least
one message for compression. -/
theorem getMessagesForCompression_ne_nil (w : WorkingMemory)
    (h : nonSystemMessages w ≠ []) :
    getMessagesForCompression w ≠ [] := by
  have hpos : 0 < (nonSystemMessages w).length := List.length_pos.mpr h
  unfold getMessagesForCompression
  intro hcontra
  have hlen := congrArg List.length hcontra
  simp only [List.length_take, List.length_nil] at hlen
  omega

/-- The new message appended by `add_message` is itself non-system when its
role differs from "system". -/
theorem nonSystemMessages_wmAddMessage_ne_nil (w : WorkingMemory)
    (role content : String) (hrole : role ≠ "system") :
    nonSystemMessages (wmAddMessage w role content) ≠ [] := by
  unfold nonSystemMessages wmAddMessage
  simp only [List.filter_append]
  intro h
  rcases List.append_eq_nil.mp h with ⟨-, h2⟩
  simp [mkMessage, hrole] at h2

/-! ## Claims -/

/-- Claim C4, counterexample.  The claim reads a fresh `Message`'s
`token_estimate` as ceil(len/4) with minimum 1, predicting 2 for a
5-character content; the code computes `max(1, len // 4)` (floor), which
yields 1 for "abcde". -/
theorem c4_counterexample :
    (mkMessage "user" "abcde" 0).token_estimate = 1 ∧
      "abcde".length = 5 ∧ max 1 ((5 + 3) / 4) = 2 ∧ (1 : Nat) ≠ 2 := by
  decide

/-- Claim C4 (amended): a `Message` created without an explicitly supplied
`token_estimate` gets `max(1, floor(len(content) / 4))` — floor, not ceil —
so the estimate is always at least 1 and a 5-character content yields 1. -/
theorem message_token_estimate (role content : String) :
    (mkMessage role content 0).token_estimate = max 1 (content.length / 4) ∧
      1 ≤ (mkMessage role content 0).token_estimate := by
  refine ⟨rfl, ?_⟩
  simp [mkMessage]

/-- Claim C5, counterexample.  With k = 3 non-system messages the claim
(oldest ⌈k/2⌉, i.e. 2 of 3) predicts two messages; the code takes
`max(1, 3 // 2) = 1`. -/
theorem c5_counterexample :
    (nonSystemMessages wmThree).length = 3 ∧
      (getMessagesForCompression wmThree).length = 1 ∧
      (1 : Nat) ≠ (3 + 1) / 2 := by
  decide

/-- Claim C5 (amended): for a window holding k ≥ 1 non-system messages,
`get_messages_for_compression` returns exactly the oldest
`max(1, floor(k/2))` non-system messages (a prefix of the non-system
sublist, which it does not remove — the function reads but never writes the
window, so a repeated call before any mutation returns the same list). -/
theorem messages_for_compression_oldest_floor_half (w : WorkingMemory)
    (h : 0 < (nonSystemMessages w).length) :
    (getMessagesForCompression w).length =
        max 1 ((nonSystemMessages w).length / 2) ∧
      ∃ rest, nonSystemMessages w = getMessagesForCompression w ++ rest := by
  unfold getMessagesForCompression
  constructor
  · rw [List.length_take]
    have hle : max 1 ((nonSystemMessages w).length / 2) ≤ (nonSystemMessages w).length := by
      have := Nat.div_le_self (nonSystemMessages w).length 2
      omega
    omega
  · exact ⟨(nonSystemMessages w).drop (max 1 ((nonSystemMessages w).length / 2)),
      (List.take_append_drop _ _).symm⟩

/-- Claim C5 witness: the amended theorem applied to the concrete
three-message window. -/
theorem messages_for_compression_witness :
    0 < (nonSystemMessages wmThree).length ∧
      ((getMessagesForCompression wmThree).length =
          max 1 ((nonSystemMessages wmThree).length / 2) ∧
        ∃ rest, nonSystemMessages wmThree = getMessagesForCompression wmThree ++ rest) :=
  ⟨by decide, messages_for_compression_oldest_floor_half wmThree (by decide)⟩

/-- Claim C2: a `remember` call with dedup enabled and `store_semantic=True`
whose candidate is judged a duplicate of the fetched comparison pool
returns with both the episodic and the semantic store (indeed the whole
state) unchanged. -/
theorem remember_duplicate_no_write (cfg : MemoryConfig) (env : Env)
    (s : StoreState) (content : String) (importance : Int) (pool : List String)
    (hd : cfg.enable_dedup = true)
    (hs : env.search content = some pool)
    (hdup : isDuplicate env.simOracle content pool = true) :
    remember cfg env s content importance true = s :=
  remember_dup_eq cfg env s content importance pool hd hs hdup

/-- Claim C2 witness: the theorem applied to a duplicate `remember("X")`
against a pool already containing "X". -/
theorem remember_duplicate_no_write_witness :
    envSecondCall.search "X" = some ["X"] ∧
      isDuplicate envSecondCall.simOracle "X" ["X"] = true ∧
      remember cfgDefault envSecondCall stEmpty "X" 5 true = stEmpty :=
  ⟨rfl, by decide,
    remember_duplicate_no_write cfgDefault envSecondCall stEmpty "X" 5 ["X"]
      rfl rfl (by decide)⟩

/-- Claim C1, counterexample.  Two successive `remember("X")` calls with
dedup enabled, the second judged a duplicate by exact match, leave ONE
episodic record for "X", not the two the claim predicts: the duplicate
branch returns before the episodic write, so the episodic write IS gated. -/
theorem c1_counterexample :
    (c1State.episodic.records.filter (fun r => r.content == "X")).length = 1 ∧
      semCount c1State.semantic = 1 ∧
      ¬ (c1State.episodic.records.filter (fun r => r.content == "X")).length = 2 := by
  decide

/-- Claim C1 (amended): for two successive `remember("X")` calls with dedup
enabled, the exact-match rule judging the second call a duplicate, and
`store_semantic=True`, the stores afterwards contain exactly one semantic
entry for "X" and exactly ONE episodic record for "X": the duplicate
judgement gates the episodic write together with the semantic write. -/
theorem remember_twice_duplicate_counts (cfg : MemoryConfig) (env1 env2 : Env)
    (s : StoreState) (content : String) (imp1 imp2 : Int)
    (pool1 pool2 : List String)
    (hd : cfg.enable_dedup = true)
    (h1s : env1.search content = some pool1)
    (h1n : isDuplicate env1.simOracle content pool1 = false)
    (h1ok : env1.semOk = true)
    (h2s : env2.search content = some pool2)
    (h2dup : isDuplicate env2.simOracle content pool2 = true)
    (hroom : s.episodic.records.length < cfg.max_entries)
    (hfreshE : ∀ r ∈ s.episodic.records, r.content ≠ content)
    (hfreshS : content ∉ s.semantic.entries) :
    (((remember cfg env2 (remember cfg env1 s content imp1 true)
          content imp2 true).episodic.records.filter
        (fun r => r.content == content)).length = 1) ∧
      semCount (remember cfg env2 (remember cfg env1 s content imp1 true)
          content imp2 true).semantic =
        semCount s.semantic + 1 := by
  have h1 : remember cfg env1 s content imp1 true =
      { s with
        episodic := epStore cfg.max_entries s.episodic content [] imp1 env1.now,
        semantic := semStore s.semantic content } := by
    unfold remember
    simp [hd, h1s, h1n, h1ok]
  have h2 : remember cfg env2 (remember cfg env1 s content imp1 true)
      content imp2 true = remember cfg env1 s content imp1 true :=
    remember_dup_eq cfg env2 _ content imp2 pool2 hd h2s h2dup
  rw [h2, h1]
  constructor
  · simp only []
    rw [epStore_no_evict cfg.max_entries s.episodic content [] imp1 env1.now hroom]
    simp only [List.filter_append]
    have hbase : s.episodic.records.filter (fun r => r.content == content) = [] := by
      rw [List.filter_eq_nil_iff]
      intro r hr
      simpa using hfreshE r hr
    rw [hbase]
    simp
  · unfold semStore semCount
    simp [hfreshS]

/-- Claim C1 witness: the amended theorem applied to the concrete pair of
`remember("X")` calls against a fresh store. -/
theorem remember_twice_duplicate_counts_witness :
    isDuplicate envFirstCall.simOracle "X" [] = false ∧
      isDuplicate envSecondCall.simOracle "X" ["X"] = true ∧
      stEmpty.episodic.records.length < cfgDefault.max_entries ∧
      (((remember cfgDefault envSecondCall
            (remember cfgDefault envFirstCall stEmpty "X" 5 true)
            "X" 5 true).episodic.records.filter
          (fun r => r.content == "X")).length = 1) ∧
      semCount (remember cfgDefault envSecondCall
          (remember cfgDefault envFirstCall stEmpty "X" 5 true)
          "X" 5 true).semantic = semCount stEmpty.semantic + 1 := by
  refine ⟨by decide, by decide, by decide, ?_⟩
  exact remember_twice_duplicate_counts cfgDefault envFirstCall envSecondCall
    stEmpty "X" 5 5 [] ["X"] rfl rfl (by decide) rfl rfl (by decide)
    (by decide) (by intro r hr; simp [stEmpty, epEmpty] at hr) (by decide)

/-- Claim C10: `MemoryStore.clear(tiers)` clears exactly the tiers named in
the list — each cleared tier becomes its cleared state, each unnamed tier
is returned unchanged — and strings other than the three known tier names
are silently ignored (the result only depends on the known names present). -/
theorem clear_exact_tiers (s : StoreState) (tiers : List String) :
    (clearTiers s tiers).working =
        (if "working" ∈ tiers then wmClear s.working else s.working) ∧
      (clearTiers s tiers).episodic =
        (if "episodic" ∈ tiers then epClear s.episodic else s.episodic) ∧
      (clearTiers s tiers).semantic =
        (if "semantic" ∈ tiers then semClear s.semantic else s.semantic) ∧
      clearTiers s tiers =
        clearTiers s (tiers.filter
          (fun t => t == "working" || t == "episodic" || t == "semantic")) := by
  unfold clearTiers
  by_cases hw : "working" ∈ tiers <;> by_cases he : "episodic" ∈ tiers <;>
    by_cases hsm : "semantic" ∈ tiers <;>
    simp [hw, he, hsm, List.mem_filter]

/-- The failing-generation branch of `add_message`: compression triggers,
`summarize` raises, nothing beyond the message append is mutated, and the
exception escapes. -/
theorem addMessage_genfail_eq (cfg : MemoryConfig) (env : Env)
    (s : StoreState) (role content : String) (e : GenErr)
    (hac : cfg.auto_compress = true)
    (herr : env.summarizeRes = Except.error e)
    (hrole : role ≠ "system")
    (htrig : needsCompression (wmAddMessage s.working role content) = true) :
    addMessage cfg env s role content =
      ({ s with working := wmAddMessage s.working role content }, Except.error e) := by
  have hne : getMessagesForCompression (wmAddMessage s.working role content) ≠ [] :=
    getMessagesForCompression_ne_nil _
      (nonSystemMessages_wmAddMessage_ne_nil s.working role content hrole)
  have hemp : (getMessagesForCompression (wmAddMessage s.working role content)).isEmpty
      = false := by
    simpa [List.isEmpty_iff] using hne
  unfold addMessage compressWorkingMemory
  simp [hac, htrig, hemp, herr]

/-- The tiny window's single "hello" crosses its threshold:
`token_count = 1 ≥ int(1 * 1.0)`. -/
theorem stTiny_triggers :
    needsCompression (wmAddMessage stTiny.working "user" "hello") = true := by
  have htok : tokenCount (wmAddMessage stTiny.working "user" "hello") = 1 := by
    decide
  unfold needsCompression
  rw [htok]
  norm_num [wmAddMessage, stTiny]

/-- Claim C3, counterexample.  When the message pushes the window over the
threshold and the generation backend fails, `add_message` does NOT return
normally: the failure escapes to the caller (the source has no
`GenerationUnavailable` handler — indeed no such error class exists — and
no try/except around the `summarize` call). -/
theorem c3_counterexample :
    (addMessage cfgDefault envGenFail stTiny "user" "hello").2 =
      Except.error GenErr.generationUnavailable := by
  rw [addMessage_genfail_eq cfgDefault envGenFail stTiny "user" "hello"
    GenErr.generationUnavailable rfl rfl (by decide) stTiny_triggers]

/-- Claim C3 (amended): when auto-compression triggers on `add_message` and
the generation call fails, the failure propagates to the caller of
`add_message`; however nothing was mutated beyond appending the new message
— no messages are evicted and no episodic or semantic write occurs — so
the window is left uncompressed and, the token count only growing,
compression re-triggers on the next message add. -/
theorem addMessage_generation_failure (cfg : MemoryConfig) (env : Env)
    (s : StoreState) (role content : String) (e : GenErr)
    (hac : cfg.auto_compress = true)
    (herr : env.summarizeRes = Except.error e)
    (hrole : role ≠ "system")
    (htrig : needsCompression (wmAddMessage s.working role content) = true) :
    addMessage cfg env s role content =
        ({ s with working := wmAddMessage s.working role content }, Except.error e) ∧
      ∀ r2 c2, needsCompression
          (wmAddMessage (wmAddMessage s.working role content) r2 c2) = true :=
  ⟨addMessage_genfail_eq cfg env s role content e hac herr hrole htrig,
    fun r2 c2 => needsCompression_wmAddMessage _ r2 c2 htrig⟩

/-- Claim C3 witness: the amended theorem applied to the tiny window where
one "hello" triggers compression against the failing backend. -/
theorem addMessage_generation_failure_witness :
    cfgDefault.auto_compress = true ∧
      envGenFail.summarizeRes = Except.error GenErr.generationUnavailable ∧
      needsCompression (wmAddMessage stTiny.working "user" "hello") = true ∧
      (addMessage cfgDefault envGenFail stTiny "user" "hello" =
          ({ stTiny with working := wmAddMessage stTiny.working "user" "hello" },
            Except.error GenErr.generationUnavailable) ∧
        ∀ r2 c2, needsCompression
            (wmAddMessage (wmAddMessage stTiny.working "user" "hello") r2 c2) = true) :=
  ⟨rfl, rfl, stTiny_triggers,
    addMessage_generation_failure cfgDefault envGenFail stTiny "user" "hello"
      GenErr.generationUnavailable rfl rfl (by decide) stTiny_triggers⟩

/-- Raising the budget extends the included bullet lines: the lines kept at
the smaller budget are an initial segment of those kept at the larger. -/
theorem ctxTake_extend (mems : List String) : ∀ b1 b2 : Int, b1 ≤ b2 →
    ∃ t, ctxTake b2 mems = ctxTake b1 mems ++ t := by
  induction mems with
  | nil =>
    intro b1 b2 _
    exact ⟨[], rfl⟩
  | cons mem rest ih =>
    intro b1 b2 hb
    by_cases h1 : b1 - ((("- " ++ mem).length : Int) / 4) < 0
    · refine ⟨ctxTake b2 (mem :: rest), ?_⟩
      have hnil : ctxTake b1 (mem :: rest) = [] := by
        unfold ctxTake
        rw [if_pos h1]
      rw [hnil, List.nil_append]
    · have h2 : ¬ b2 - ((("- " ++ mem).length : Int) / 4) < 0 := by omega
      obtain ⟨t, ht⟩ := ih (b1 - ((("- " ++ mem).length : Int) / 4))
        (b2 - ((("- " ++ mem).length : Int) / 4)) (by omega)
      refine ⟨t, ?_⟩
      show ctxTake b2 (mem :: rest) = ctxTake b1 (mem :: rest) ++ t
      unfold ctxTake
      rw [if_neg h1, if_neg h2, ht, List.cons_append]

/-- Appending further bullet lines never shortens the joined context
string. -/
theorem joinContextLines_length_le (ls t : List String) :
    (joinContextLines ls).length ≤ (joinContextLines (ls ++ t)).length := by
  unfold joinContextLines
  rw [List.foldl_append]
  generalize List.foldl (fun a l => a ++ "\n" ++ l) "[Memory Context]" ls = acc
  induction t generalizing acc with
  | nil => exact le_refl _
  | cons x xs ih =>
    calc acc.length ≤ (acc ++ "\n" ++ x).length := by
          rw [String.length_append, String.length_append]; omega
      _ ≤ _ := ih (acc ++ "\n" ++ x)

/-- Claim C8: for fixed memory contents (the retrieval step of
`get_context` never reads `max_tokens`), the length of the formatted
context string is non-decreasing in the token budget. -/
theorem getContext_token_budget_monotone (memories : List String)
    (k1 k2 : Int) (h : k1 ≤ k2) :
    (getContext memories k1).length ≤ (getContext memories k2).length := by
  unfold getContext
  by_cases hm : memories.isEmpty
  · simp [hm]
  · obtain ⟨t, ht⟩ := ctxTake_extend memories k1 k2 h
    by_cases h1 : (ctxTake k1 memories).isEmpty
    · simp [hm, h1]
    · have hne : ctxTake k1 memories ≠ [] := by
        simpa [List.isEmpty_iff] using h1
      have h2 : ¬ (ctxTake k2 memories).isEmpty = true := by
        rw [ht, List.isEmpty_iff]
        intro hx
        exact hne (List.append_eq_nil.mp hx).1
      simp only [hm, h1, h2, if_false, Bool.false_eq_true, if_neg]
      rw [ht]
      exact joinContextLines_length_le _ t

/-- Claim C8 witness: the theorem applied at budgets 1 ≤ 5 over two fixed
memories. -/
theorem getContext_token_budget_monotone_witness :
    (1 : Int) ≤ 5 ∧
      (getContext ["alpha", "beta"] 1).length ≤
        (getContext ["alpha", "beta"] 5).length :=
  ⟨by decide, getContext_token_budget_monotone ["alpha", "beta"] 1 5 (by decide)⟩

/-- Claim C9, counterexample.  The recall query
`SELECT ... ORDER BY created_at DESC LIMIT n` has no secondary sort key, so
for two records sharing a `created_at` the insertion-ordered output
(oldest-inserted first) is an admissible result of the query; the claim's
mandatory most-recently-inserted-first tie order does not hold of it. -/
theorem c9_counterexample :
    recallRecentRel epTied 2
        [⟨0, "first", [], 5, 10⟩, ⟨1, "second", [], 5, 10⟩] ∧
      ¬ ([(⟨0, "first", [], 5, 10⟩ : EpisodicRecord),
          ⟨1, "second", [], 5, 10⟩].Pairwise mriOrder) := by
  constructor
  · exact ⟨[⟨0, "first", [], 5, 10⟩, ⟨1, "second", [], 5, 10⟩],
      List.Perm.refl _, by decide, rfl⟩
  · decide

/-- Claim C9 (amended): `recall_recent(n)` returns up to n records of the
namespace in non-increasing `created_at` order (most recent first); the
relative order of records sharing a `created_at` is not specified by the
query (no secondary ORDER BY key). -/
theorem recall_recent_sorted (s : EpisodicState) (n : Nat)
    (out : List EpisodicRecord) (h : recallRecentRel s n out) :
    out.length ≤ n ∧ out.Pairwise createdDescOrder := by
  obtain ⟨ord, hperm, hsort, hout⟩ := h
  subst hout
  exact ⟨List.length_take_le n ord, hsort.sublist (List.take_sublist n ord)⟩

/-- Content dedup keeps a subsequence of its input list. -/
theorem dedupByContent_sublist (l : List RecallItem) : ∀ seen,
    List.Sublist (dedupByContent seen l) l := by
  induction l with
  | nil =>
    intro seen
    simp [dedupByContent]
  | cons r rest ih =>
    intro seen
    unfold dedupByContent
    by_cases hc : r.content ∈ seen
    · rw [if_pos hc]
      exact (ih seen).cons r
    · rw [if_neg hc]
      exact (ih (r.content :: seen)).cons₂ r

/-- Content dedup yields pairwise-distinct contents, none of them in the
seen set. -/
theorem dedupByContent_nodup (l : List RecallItem) : ∀ seen,
    ((dedupByContent seen l).map RecallItem.content).Nodup ∧
      ∀ c ∈ (dedupByContent seen l).map RecallItem.content, c ∉ seen := by
  induction l with
  | nil =>
    intro seen
    refine ⟨by simp [dedupByContent], ?_⟩
    intro c hc
    simp [dedupByContent] at hc
  | cons r rest ih =>
    intro seen
    unfold dedupByContent
    by_cases hc : r.content ∈ seen
    · rw [if_pos hc]
      exact ih seen
    · rw [if_neg hc]
      obtain ⟨hnd, hns⟩ := ih (r.content :: seen)
      refine ⟨?_, ?_⟩
      · simp only [List.map_cons, List.nodup_cons]
        exact ⟨fun hmem => (hns _ hmem) (List.mem_cons_self _ _), hnd⟩
      · intro c hcmem
        simp only [List.map_cons, List.mem_cons] at hcmem
        rcases hcmem with rfl | hcm
        · exact hc
        · exact fun hcs => (hns c hcm) (List.mem_cons_of_mem _ hcs)

/-- The deterministic merge of `recall` returns at most `n` items, with
pairwise-distinct contents, sorted by score descending. -/
theorem recallPure_properties (semanticResults : List (String × ℚ))
    (recent : List (String × Int)) (n : Nat) :
    (recallPure semanticResults recent n).length ≤ n ∧
      ((recallPure semanticResults recent n).map RecallItem.content).Nodup ∧
      (recallPure semanticResults recent n).Pairwise scoreGE := by
  unfold recallPure
  refine ⟨List.length_take_le _ _, ?_, ?_⟩
  · exact ((dedupByContent_nodup _ []).1).sublist
      ((List.take_sublist _ _).map RecallItem.content)
  · exact List.Pairwise.sublist
      ((List.take_sublist _ _).trans (dedupByContent_sublist _ []))
      (List.sorted_insertionSort scoreGE _)

/-- Claim C7: every admissible output of
`recall(query, n, include_episodic=True)` — semantic search results scored
by similarity merged with the min(n, 10) most recent episodic records
scored by importance/10, stably sorted by score descending, first content
occurrence kept, truncated to n — has at most n results, pairwise-distinct
contents, and non-increasing scores. -/
theorem recall_ranked (semanticResults : List (String × ℚ))
    (s : EpisodicState) (n : Nat) (out : List RecallItem)
    (h : recallRel semanticResults s n out) :
    out.length ≤ n ∧ (out.map RecallItem.content).Nodup ∧
      out.Pairwise scoreGE := by
  obtain ⟨recent, -, hout⟩ := h
  subst hout
  exact recallPure_properties _ _ _

/-- Claim C7 witness: the theorem applied to one semantic result and the
empty episodic namespace. -/
theorem recall_ranked_witness :
    recallRel [("alpha", (1 : ℚ) / 2)] epEmpty 3
        (recallPure [("alpha", (1 : ℚ) / 2)] [] 3) ∧
      ((recallPure [("alpha", (1 : ℚ) / 2)] [] 3).length ≤ 3 ∧
        ((recallPure [("alpha", (1 : ℚ) / 2)] [] 3).map RecallItem.content).Nodup ∧
        (recallPure [("alpha", (1 : ℚ) / 2)] [] 3).Pairwise scoreGE) :=
  ⟨⟨[], ⟨[], List.Perm.refl _, List.Pairwise.nil, rfl⟩, rfl⟩,
    recall_ranked [("alpha", (1 : ℚ) / 2)] epEmpty 3 _
      ⟨[], ⟨[], List.Perm.refl _, List.Pairwise.nil, rfl⟩, rfl⟩⟩

/-- Nothing outranks itself. -/
theorem rankedAbove_irrefl (r : EpisodicRecord) : ¬ rankedAbove r r := by
  unfold rankedAbove; omega

/-- Outranking is asymmetric. -/
theorem rankedAbove_asymm {r s : EpisodicRecord} (h : rankedAbove r s) :
    ¬ rankedAbove s r := by
  unfold rankedAbove at h ⊢; omega

/-- Outranking is transitive. -/
theorem rankedAbove_trans {a b c : EpisodicRecord}
    (h1 : rankedAbove a b) (h2 : rankedAbove b c) : rankedAbove a c := by
  unfold rankedAbove at h1 h2 ⊢; omega

/-- The eviction order is reflexive. -/
theorem evictLE_refl (r : EpisodicRecord) : evictLE r r := by
  unfold evictLE; omega

/-- On records with distinct timestamps the eviction order agrees with the
ranking: the one evicted no later is outranked. -/
theorem evictLE_rankedAbove {a b : EpisodicRecord} (h : evictLE a b)
    (hcd : a.created_at ≠ b.created_at) : rankedAbove a b := by
  unfold evictLE at h; unfold rankedAbove; omega

/-- Ids of the rows a call sequence creates lie in
`[startId, startId + number of calls)`. -/
theorem mkRecords_mem_rid (calls : List StoreCall) : ∀ (startId : Nat),
    ∀ r ∈ mkRecords startId calls,
      startId ≤ r.rid ∧ r.rid < startId + calls.length := by
  induction calls with
  | nil =>
    intro s r hr
    simp [mkRecords] at hr
  | cons c rest ih =>
    intro s r hr
    rw [mkRecords, List.mem_cons] at hr
    rcases hr with rfl | hm
    · dsimp only
      simp only [List.length_cons]
      omega
    · have := ih (s + 1) r hm
      simp only [List.length_cons]
      omega

/-- Row creation of a concatenated call sequence splits accordingly. -/
theorem mkRecords_append (xs ys : List StoreCall) : ∀ startId : Nat,
    mkRecords startId (xs ++ ys) =
      mkRecords startId xs ++ mkRecords (startId + xs.length) ys := by
  induction xs with
  | nil =>
    intro s
    simp [mkRecords]
  | cons c rest ih =>
    intro s
    show (⟨s, c.content, [], c.now, c.importance⟩ : EpisodicRecord) ::
        mkRecords (s + 1) (rest ++ ys) =
      ((⟨s, c.content, [], c.now, c.importance⟩ : EpisodicRecord) ::
        mkRecords (s + 1) rest) ++ mkRecords (s + (c :: rest).length) ys
    rw [List.cons_append, ih (s + 1), List.length_cons]
    have h2 : s + 1 + rest.length = s + (rest.length + 1) := by omega
    rw [h2]

/-- Both branches of `EpisodicMemory.store` advance the AUTOINCREMENT
counter by one. -/
theorem epStore_next_id (m : Nat) (s : EpisodicState) (content : String)
    (md : List (String × String)) (imp now : Int) :
    (epStore m s content md imp now).next_id = s.next_id + 1 := by
  by_cases h : m < s.records.length + 1
  · simp [epStore, h]
  · simp [epStore, h]

/-- The evicting branch of `EpisodicMemory.store` at a full namespace:
exactly one row — the least under the eviction order — is deleted. -/
theorem epStore_evict_eq (m : Nat) (s : EpisodicState) (content : String)
    (md : List (String × String)) (imp now : Int)
    (hlen : s.records.length = m) :
    epStore m s content md imp now =
      ⟨s.next_id + 1,
        (s.records ++ [(⟨s.next_id, content, md, now, imp⟩ : EpisodicRecord)]).filter
          (fun y => decide (y.rid ∉
            ((List.insertionSort evictLE
                (s.records ++ [(⟨s.next_id, content, md, now, imp⟩ :
                  EpisodicRecord)])).take 1).map
              EpisodicRecord.rid))⟩ := by
  subst hlen
  have hc : s.records.length < s.records.length + 1 := by omega
  simp [epStore, hc]

/-- The invariant holds of the fresh namespace. -/
theorem evInv_empty (m : Nat) : EvInv m [] epEmpty := by
  constructor <;> simp [epEmpty]

/-- Facts about extending the stored-so-far list by a fresh row with a
fresh id and a strictly newer timestamp. -/
theorem evInv_extend_facts {m : Nat} {all : List EpisodicRecord}
    {s : EpisodicState} (inv : EvInv m all s) (x : EpisodicRecord)
    (hrid : x.rid = s.next_id)
    (hts : ∀ r ∈ all, r.created_at < x.created_at) :
    x ∉ all ∧ x ∉ s.records ∧
      (∀ r ∈ all ++ [x], r.rid < s.next_id + 1) ∧
      (∀ r ∈ all ++ [x], ∀ t ∈ all ++ [x], r.rid = t.rid → r = t) ∧
      (∀ r ∈ all ++ [x], ∀ t ∈ all ++ [x], r = t ∨ r.created_at ≠ t.created_at) ∧
      (all ++ [x]).Nodup ∧ (s.records ++ [x]).Nodup := by
  have hxall : x ∉ all := by
    intro h
    have := inv.ridlt x h
    omega
  have hxrec : x ∉ s.records := fun h => hxall (inv.sub x h)
  refine ⟨hxall, hxrec, ?_, ?_, ?_, ?_, ?_⟩
  · intro r hr
    rcases List.mem_append.mp hr with h | h
    · have := inv.ridlt r h; omega
    · rw [List.mem_singleton] at h; subst h; omega
  · intro r hr t ht hrt
    rcases List.mem_append.mp hr with h1 | h1 <;>
      rcases List.mem_append.mp ht with h2 | h2
    · exact inv.ridinj r h1 t h2 hrt
    · rw [List.mem_singleton] at h2; subst h2
      have := inv.ridlt r h1; omega
    · rw [List.mem_singleton] at h1; subst h1
      have := inv.ridlt t h2; omega
    · rw [List.mem_singleton] at h1 h2; subst h1; subst h2; rfl
  · intro r hr t ht
    rcases List.mem_append.mp hr with h1 | h1 <;>
      rcases List.mem_append.mp ht with h2 | h2
    · exact inv.tsdist r h1 t h2
    · rw [List.mem_singleton] at h2; subst h2
      exact Or.inr (ne_of_lt (hts r h1))
    · rw [List.mem_singleton] at h1; subst h1
      exact Or.inr (ne_of_gt (hts t h2))
    · rw [List.mem_singleton] at h1 h2; subst h1; subst h2; exact Or.inl rfl
  · refine inv.ndAll.append (List.nodup_singleton x) ?_
    intro a ha hax
    rw [List.mem_singleton] at hax; subst hax
    exact hxall ha
  · refine inv.ndRec.append (List.nodup_singleton x) ?_
    intro a ha hax
    rw [List.mem_singleton] at hax; subst hax
    exact hxrec ha

/-- Invariant preservation, non-evicting branch: the namespace still has
room, the new row is appended. -/
theorem evInv_step_append {m : Nat} {all : List EpisodicRecord}
    {s : EpisodicState} (inv : EvInv m all s) (x : EpisodicRecord)
    (hrid : x.rid = s.next_id)
    (hts : ∀ r ∈ all, r.created_at < x.created_at)
    (hroom : all.length < m) :
    EvInv m (all ++ [x]) ⟨s.next_id + 1, s.records ++ [x]⟩ := by
  obtain ⟨hxall, hxrec, hlt, hinj, htsd, hndA, hndR⟩ :=
    evInv_extend_facts inv x hrid hts
  have hreclen : s.records.length = all.length := by
    have := inv.len; omega
  have hperm : s.records.Perm all :=
    (inv.ndRec.subperm inv.sub).perm_of_length_le (by omega)
  refine ⟨?_, ?_, ?_, hlt, hinj, htsd, hndA, hndR⟩
  · intro r hr
    rcases List.mem_append.mp hr with h | h
    · exact List.mem_append_left _ (inv.sub r h)
    · exact List.mem_append_right _ h
  · simp only [List.length_append, List.length_cons, List.length_nil]
    omega
  · intro r hr t ht htns
    exfalso
    rcases List.mem_append.mp ht with h | h
    · exact htns (List.mem_append_left _ (hperm.mem_iff.mpr h))
    · exact htns (List.mem_append_right _ h)

/-- Invariant preservation, evicting branch: the namespace is full, the new
row is appended and the least row under the eviction order is deleted. -/
theorem evInv_step_evict {m : Nat} {all : List EpisodicRecord}
    {s : EpisodicState} (inv : EvInv m all s) (x : EpisodicRecord)
    (hrid : x.rid = s.next_id)
    (hts : ∀ r ∈ all, r.created_at < x.created_at)
    (hfull : m ≤ all.length) (e : EpisodicRecord) (tail : List EpisodicRecord)
    (hS : List.insertionSort evictLE (s.records ++ [x]) = e :: tail) :
    EvInv m (all ++ [x])
      ⟨s.next_id + 1,
        (s.records ++ [x]).filter (fun y => decide (y.rid ∉ [e.rid]))⟩ := by
  obtain ⟨hxall, hxrec, hlt, hinj, htsd, hndA, hndR⟩ :=
    evInv_extend_facts inv x hrid hts
  have hreclen : s.records.length = m := by
    have := inv.len; omega
  have hsubrecs : s.records ++ [x] ⊆ all ++ [x] := by
    intro y hy
    rcases List.mem_append.mp hy with h | h
    · exact List.mem_append_left _ (inv.sub y h)
    · exact List.mem_append_right _ h
  have hperm := List.perm_insertionSort evictLE (s.records ++ [x])
  rw [hS] at hperm
  have he_mem : e ∈ s.records ++ [x] := hperm.mem_iff.mp (List.mem_cons_self e tail)
  have hsorted := List.sorted_insertionSort evictLE (s.records ++ [x])
  rw [hS] at hsorted
  have htailLE := (List.pairwise_cons.mp hsorted).1
  have hmin : ∀ y ∈ s.records ++ [x], evictLE e y := by
    intro y hy
    have hy2 : y ∈ e :: tail := hperm.mem_iff.mpr hy
    rcases List.mem_cons.mp hy2 with rfl | hytail
    · exact evictLE_refl y
    · exact htailLE y hytail
  have hinjrecs : ∀ y ∈ s.records ++ [x], ∀ z ∈ s.records ++ [x],
      y.rid = z.rid → y = z := fun y hy z hz =>
    hinj y (hsubrecs hy) z (hsubrecs hz)
  have hfiltereq : (s.records ++ [x]).filter (fun y => decide (y.rid ∉ [e.rid])) =
      (s.records ++ [x]).filter (fun y => y != e) := by
    apply List.filter_congr
    intro y hy
    by_cases hye : y = e
    · subst hye; simp
    · have hyr : y.rid ≠ e.rid := fun hr => hye (hinjrecs y hy e he_mem hr)
      simp [hyr, hye]
  rw [hfiltereq, ← hndR.erase_eq_filter e]
  have hmemer : ∀ y, y ∈ (s.records ++ [x]).erase e ↔
      y ≠ e ∧ y ∈ s.records ++ [x] := fun y => hndR.mem_erase_iff
  have hlener : ((s.records ++ [x]).erase e).length = m := by
    have := List.length_erase_of_mem he_mem
    simp only [List.length_append, List.length_cons, List.length_nil] at this
    omega
  refine ⟨?_, ?_, ?_, hlt, hinj, htsd, hndA, hndR.erase e⟩
  · intro r hr
    exact hsubrecs (List.mem_of_mem_erase hr)
  · simp only [hlener, List.length_append, List.length_cons, List.length_nil]
    omega
  · intro r hr t ht htns
    obtain ⟨hrne, hrrecs⟩ := (hmemer r).mp hr
    by_cases htrecs : t ∈ s.records ++ [x]
    · have hte : t = e := by
        by_contra htne
        exact htns ((hmemer t).mpr ⟨htne, htrecs⟩)
      subst hte
      have hLE : evictLE t r := hmin r hrrecs
      have hne : t ≠ r := fun h => hrne h.symm
      have hcd : t.created_at ≠ r.created_at := by
        rcases htsd t (hsubrecs htrecs) r (hsubrecs hrrecs) with h | h
        · exact absurd h hne
        · exact h
      exact evictLE_rankedAbove hLE hcd
    · have htall : t ∈ all := by
        rcases List.mem_append.mp ht with h | h
        · exact h
        · rw [List.mem_singleton] at h; subst h
          exact absurd (List.mem_append_right _ (List.mem_singleton_self t)) htrecs
      have htnrec : t ∉ s.records := fun hh => htrecs (List.mem_append_left _ hh)
      rcases List.mem_append.mp hrrecs with hrrec | hrx
      · exact inv.dom r hrrec t htall htnrec
      · rw [List.mem_singleton] at hrx; subst hrx
        have hene : e ≠ r := fun h => hrne h.symm
        have herec : e ∈ s.records := by
          rcases List.mem_append.mp he_mem with h | h
          · exact h
          · rw [List.mem_singleton] at h
            exact absurd h.symm hrne
        have h1 : rankedAbove t e := inv.dom e herec t htall htnrec
        have h2 : rankedAbove e r := by
          have hLE : evictLE e r := hmin r hrrecs
          have hcd : e.created_at ≠ r.created_at := by
            rcases htsd e (hsubrecs he_mem) r (hsubrecs hrrecs) with h | h
            · exact absurd h hene
            · exact h
          exact evictLE_rankedAbove hLE hcd
        exact rankedAbove_trans h1 h2

/-- Invariant preservation across one `EpisodicMemory.store` call with a
strictly newer timestamp. -/
theorem evInv_step {m : Nat} {all : List EpisodicRecord} {s : EpisodicState}
    (inv : EvInv m all s) (c : StoreCall)
    (hts : ∀ r ∈ all, r.created_at < c.now) :
    EvInv m (all ++ [⟨s.next_id, c.content, [], c.now, c.importance⟩])
      (epStore m s c.content [] c.importance c.now) := by
  by_cases hroom : all.length < m
  · rw [epStore_no_evict m s c.content [] c.importance c.now
      (by rw [inv.len]; omega)]
    exact evInv_step_append inv _ rfl hts hroom
  · have hfull : m ≤ all.length := by omega
    have hlen : s.records.length = m := by rw [inv.len]; omega
    have hlenrecs : (s.records ++
        [(⟨s.next_id, c.content, [], c.now, c.importance⟩ : EpisodicRecord)]).length
        = m + 1 := by
      simp only [List.length_append, List.length_cons, List.length_nil]
      omega
    obtain ⟨e, tail, hS⟩ : ∃ e tail, List.insertionSort evictLE
        (s.records ++ [(⟨s.next_id, c.content, [], c.now, c.importance⟩ :
          EpisodicRecord)]) = e :: tail := by
      cases hcase : List.insertionSort evictLE (s.records ++
          [(⟨s.next_id, c.content, [], c.now, c.importance⟩ : EpisodicRecord)]) with
      | nil =>
        exfalso
        have hp := List.perm_insertionSort evictLE (s.records ++
          [(⟨s.next_id, c.content, [], c.now, c.importance⟩ : EpisodicRecord)])
        rw [hcase] at hp
        have := hp.length_eq
        rw [hlenrecs] at this
        simp at this
      | cons e tail => exact ⟨e, tail, rfl⟩
    rw [epStore_evict_eq m s c.content [] c.importance c.now hlen]
    simp only [hS, List.take_succ_cons, List.take_zero, List.map_cons,
      List.map_nil]
    exact evInv_step_evict inv _ rfl hts hfull e tail hS

/-- The invariant, folded over a whole call sequence with strictly
increasing timestamps. -/
theorem runStores_inv (m : Nat) (calls : List StoreCall) :
    ∀ (s : EpisodicState) (all : List EpisodicRecord),
      calls.Pairwise (fun a b => a.now < b.now) →
      (∀ r ∈ all, ∀ c ∈ calls, r.created_at < c.now) →
      EvInv m all s →
      EvInv m (all ++ mkRecords s.next_id calls) (runStores m s calls) := by
  induction calls with
  | nil =>
    intro s all _ _ inv
    simpa [mkRecords, runStores] using inv
  | cons c rest ih =>
    intro s all hpw hfut inv
    have hts : ∀ r ∈ all, r.created_at < c.now := fun r hr =>
      hfut r hr c (List.mem_cons_self _ _)
    have inv' := evInv_step inv c hts
    have hpwrest := (List.pairwise_cons.mp hpw).2
    have hcrest := (List.pairwise_cons.mp hpw).1
    have hfut' : ∀ r ∈ all ++ [(⟨s.next_id, c.content, [], c.now, c.importance⟩ :
        EpisodicRecord)], ∀ c' ∈ rest, r.created_at < c'.now := by
      intro r hr c' hc'
      rcases List.mem_append.mp hr with h | h
      · exact hfut r h c' (List.mem_cons_of_mem _ hc')
      · rw [List.mem_singleton] at h; subst h
        exact hcrest c' hc'
    have hres := ih (epStore m s c.content [] c.importance c.now)
      (all ++ [⟨s.next_id, c.content, [], c.now, c.importance⟩])
      hpwrest hfut' inv'
    rw [epStore_next_id] at hres
    show EvInv m (all ++ mkRecords s.next_id (c :: rest)) (runStores m s (c :: rest))
    rw [mkRecords]
    have : all ++ (⟨s.next_id, c.content, [], c.now, c.importance⟩ :: mkRecords
        (s.next_id + 1) rest) = (all ++
          [⟨s.next_id, c.content, [], c.now, c.importance⟩]) ++
        mkRecords (s.next_id + 1) rest := by
      simp
    rw [this]
    exact hres

/-- The invariant characterizes the surviving rows as the top `max_entries`
of all rows stored so far. -/
theorem evInv_mem_iff {m : Nat} {all : List EpisodicRecord}
    {s : EpisodicState} (inv : EvInv m all s) :
    ∀ r, r ∈ s.records ↔ (r ∈ all ∧ countAbove r all < m) := by
  intro r
  constructor
  · intro hr
    refine ⟨inv.sub r hr, ?_⟩
    have hsubfil : all.filter (fun x => decide (rankedAbove r x)) ⊆
        s.records.filter (fun t => t != r) := by
      intro t ht
      rw [List.mem_filter] at ht ⊢
      obtain ⟨htall, htp⟩ := ht
      have htRA : rankedAbove r t := of_decide_eq_true htp
      by_cases htrec : t ∈ s.records
      · refine ⟨htrec, ?_⟩
        have hne : t ≠ r := by
          intro h; subst h; exact rankedAbove_irrefl t htRA
        simpa using hne
      · exact absurd (inv.dom r hr t htall htrec) (rankedAbove_asymm htRA)
    have hnd : (all.filter (fun x => decide (rankedAbove r x))).Nodup :=
      inv.ndAll.filter _
    have hlen1 : (all.filter (fun x => decide (rankedAbove r x))).length ≤
        (s.records.filter (fun t => t != r)).length :=
      (hnd.subperm hsubfil).length_le
    have hlen2 : (s.records.filter (fun t => t != r)).length <
        s.records.length := by
      have herase := inv.ndRec.erase_eq_filter r
      have hlr := List.length_erase_of_mem hr
      rw [herase] at hlr
      have hpos : 0 < s.records.length :=
        List.length_pos.mpr (List.ne_nil_of_mem hr)
      omega
    have hrecle : s.records.length ≤ m := by
      rw [inv.len]; exact min_le_right _ _
    unfold countAbove
    rw [List.countP_eq_length_filter]
    omega
  · rintro ⟨hall, hcount⟩
    by_contra hnot
    have hdom : ∀ t ∈ s.records, rankedAbove r t := fun t ht =>
      inv.dom t ht r hall hnot
    have hsubfil : s.records ⊆ all.filter (fun x => decide (rankedAbove r x)) := by
      intro t ht
      rw [List.mem_filter]
      exact ⟨inv.sub t ht, decide_eq_true (hdom t ht)⟩
    have hlen : s.records.length ≤
        (all.filter (fun x => decide (rankedAbove r x))).length :=
      (inv.ndRec.subperm hsubfil).length_le
    have hcount' : (all.filter (fun x => decide (rankedAbove r x))).length < m := by
      unfold countAbove at hcount
      rw [List.countP_eq_length_filter] at hcount
      exact hcount
    have hreclen := inv.len
    have hperm : s.records.Perm all :=
      (inv.ndRec.subperm inv.sub).perm_of_length_le (by omega)
    exact hnot (hperm.mem_iff.mpr hall)

/-- Claim C6: for every sequence of `RecentLog.store` calls in one
namespace (with the wall clock strictly increasing across calls, which
makes "the top max_entries" well defined), after each store — i.e. after
every prefix of the sequence — the namespace count is at most
`max_entries`, and the surviving records are exactly those with fewer than
`max_entries` records outranking them under (importance descending,
created_at descending), i.e. exactly the top `max_entries` of all records
stored so far. -/
theorem episodic_eviction_invariant (m : Nat) (calls : List StoreCall)
    (hinc : calls.Pairwise (fun a b => a.now < b.now))
    (pre suf : List StoreCall) (hsplit : calls = pre ++ suf) :
    (runStores m epEmpty pre).records.length ≤ m ∧
      ∀ r, r ∈ (runStores m epEmpty pre).records ↔
        (r ∈ mkRecords 0 pre ∧ countAbove r (mkRecords 0 pre) < m) := by
  subst hsplit
  have hpre : pre.Pairwise (fun a b => a.now < b.now) :=
    (List.pairwise_append.mp hinc).1
  have inv := runStores_inv m pre epEmpty []
    hpre (by intro r hr; simp at hr) (evInv_empty m)
  rw [List.nil_append] at inv
  have hnext : epEmpty.next_id = 0 := rfl
  rw [hnext] at inv
  refine ⟨?_, evInv_mem_iff inv⟩
  rw [inv.len]
  exact min_le_right _ _

/-- Claim C6 witness: the theorem applied to the specification's
section-8 scenario (importances 1, 9, 5, 5 into a log capped at 3). -/
theorem episodic_eviction_invariant_witness :
    callsScenario.Pairwise (fun a b => a.now < b.now) ∧
      ((runStores 3 epEmpty callsScenario).records.length ≤ 3 ∧
        ∀ r, r ∈ (runStores 3 epEmpty callsScenario).records ↔
          (r ∈ mkRecords 0 callsScenario ∧
            countAbove r (mkRecords 0 callsScenario) < 3)) :=
  ⟨by decide,
    episodic_eviction_invariant 3 callsScenario (by decide) callsScenario []
      (List.append_nil _).symm⟩

/-- Claim C9 witness: the amended theorem applied to the tied two-record
namespace. -/
theorem recall_recent_sorted_witness :
    recallRecentRel epTied 2
        [⟨0, "first", [], 5, 10⟩, ⟨1, "second", [], 5, 10⟩] ∧
      ([(⟨0, "first", [], 5, 10⟩ : EpisodicRecord),
          ⟨1, "second", [], 5, 10⟩].length ≤ 2 ∧
        [(⟨0, "first", [], 5, 10⟩ : EpisodicRecord),
          ⟨1, "second", [], 5, 10⟩].Pairwise createdDescOrder) :=
  ⟨⟨[⟨0, "first", [], 5, 10⟩, ⟨1, "second", [], 5, 10⟩],
      List.Perm.refl _, by decide, rfl⟩,
    recall_recent_sorted epTied 2 _
      ⟨[⟨0, "first", [], 5, 10⟩, ⟨1, "second", [], 5, 10⟩],
        List.Perm.refl _, by decide, rfl⟩⟩

end AgentMemory
